import Mathlib

/-
Shallow embedding of the real-time scheduling additions to the xv6-style
kernel in src/proc.c: the process descriptor fields touched by the
real-time code, the admission controller sched_policy, the RT parameter
setters exec_time / deadline / rate, and one selection of the per-tick
scheduler loop.  C ints are modelled as Int; C integer division (which
truncates toward zero) is modelled by Int.tdiv.  The fixed NPROC array is
modelled as a list scanned in order, which matches every loop in the
source (all of them are in-order linear scans that stop at the first hit
or visit every slot).
-/

/-- Process states, matching the enum procstate in proc.h
(UNUSED, EMBRYO, SLEEPING, RUNNABLE, RUNNING, ZOMBIE). -/
inductive Pstate where
  | UNUSED
  | EMBRYO
  | SLEEPING
  | RUNNABLE
  | RUNNING
  | ZOMBIE
deriving DecidableEq

/-- The fields of struct proc that the real-time code reads or writes.
sched_policy is -1 (none) after allocproc, 0 for EDF, 1 for RM. -/
structure Proc where
  pid : Int
  state : Pstate
  sched_policy : Int
  deadline : Int
  execution_time : Int
  elapsed_time : Int
  rate : Int
  priority : Int
  arrival_time : Int
  killed : Int
deriving DecidableEq

/-- Slot contents as initialised by allocproc (proc.c lines 91-98):
priority 1, deadline 0, sched_policy -1, execution_time 1, elapsed_time 0. -/
def proc0 : Proc :=
  { pid := 0, state := Pstate.UNUSED, sched_policy := -1, deadline := 0,
    execution_time := 1, elapsed_time := 0, rate := 0, priority := 1,
    arrival_time := 0, killed := 0 }

/-- The shared state guarded by ptable.lock: the process table and the two
global utilization counters utf_edf and utf_rm (proc.c lines 10-18),
together with the global tick counter read by the RM admission path. -/
structure KState where
  ptable : List Proc
  utf_edf : Int
  utf_rm : Int
  ticks : Int
deriving DecidableEq

/-- Read of table slot i (out-of-range reads never happen in the source;
they default to an UNUSED slot here). -/
def getP (l : List Proc) (i : Nat) : Proc := l.getD i proc0

/-- Index of the first slot satisfying pred, mirroring the in-order scans
with break in proc.c. -/
def findIdxP (pred : Proc → Bool) : List Proc → Option Nat
  | [] => none
  | p :: l => if pred p then some 0 else Option.map (fun k => k + 1) (findIdxP pred l)

/-- The lookup predicate p->pid == pid used by every setter. -/
def pidPred (pid : Int) : Proc → Bool := fun p => decide (p.pid = pid)

/-- The scan predicate p->state == RUNNABLE used by the scheduler. -/
def runnableB : Proc → Bool := fun p => decide (p.state = Pstate.RUNNABLE)

/-- The Liu-Layland lookup chain of sched_policy (proc.c lines 644-772):
chk_lproc as a function of lproc = pid - 2.  Every value of lproc outside
1..63, including 0 and negatives, falls through to the final else (696). -/
def chk_lproc (lproc : Int) : Int :=
  if lproc = 1 then 1000
  else if lproc = 2 then 828
  else if lproc = 3 then 779
  else if lproc = 4 then 756
  else if lproc = 5 then 743
  else if lproc = 6 then 734
  else if lproc = 7 then 728
  else if lproc = 8 then 724
  else if lproc = 9 then 720
  else if lproc = 10 then 717
  else if lproc = 11 then 715
  else if lproc = 12 then 713
  else if lproc = 13 then 711
  else if lproc = 14 then 710
  else if lproc = 15 then 709
  else if lproc = 16 then 708
  else if lproc = 17 then 707
  else if lproc = 18 then 706
  else if lproc = 19 then 705
  else if lproc = 20 then 705
  else if lproc = 21 then 704
  else if lproc = 22 then 704
  else if lproc = 23 then 703
  else if lproc = 24 then 703
  else if lproc = 25 then 702
  else if lproc = 26 then 702
  else if lproc = 27 then 702
  else if lproc = 28 then 701
  else if lproc = 29 then 701
  else if lproc = 30 then 701
  else if lproc = 31 then 700
  else if lproc = 32 then 700
  else if lproc = 33 then 700
  else if lproc = 34 then 700
  else if lproc = 35 then 700
  else if lproc = 36 then 699
  else if lproc = 37 then 699
  else if lproc = 38 then 699
  else if lproc = 39 then 699
  else if lproc = 40 then 699
  else if lproc = 41 then 699
  else if lproc = 42 then 698
  else if lproc = 43 then 698
  else if lproc = 44 then 698
  else if lproc = 45 then 698
  else if lproc = 46 then 698
  else if lproc = 47 then 698
  else if lproc = 48 then 698
  else if lproc = 49 then 698
  else if lproc = 50 then 697
  else if lproc = 51 then 697
  else if lproc = 52 then 697
  else if lproc = 53 then 697
  else if lproc = 54 then 697
  else if lproc = 55 then 697
  else if lproc = 56 then 697
  else if lproc = 57 then 697
  else if lproc = 58 then 697
  else if lproc = 59 then 697
  else if lproc = 60 then 697
  else if lproc = 61 then 697
  else if lproc = 62 then 697
  else if lproc = 63 then 696
  else 696

/-- Embedding of sched_policy (proc.c lines 613-793).  The table is scanned
for the first slot whose pid matches; when no slot matches, the source loop
falls through with check still 0 and the function returns 0.  The EDF
branch divides by the slot's deadline with no zero guard; a zero deadline
is a C division by zero (undefined behaviour), modelled here as `none`.
The reject path of the EDF branch adds the utilization and then subtracts
it back, exactly as the source does. -/
def sched_policy (s : KState) (pid policy : Int) : Option (Int × KState) :=
  match findIdxP (pidPred pid) s.ptable with
  | none => some (0, s)
  | some i =>
    let p := getP s.ptable i
    if policy = 0 then
      if p.deadline = 0 then none
      else
        let u := (p.execution_time * 100).tdiv p.deadline
        let utf1 := s.utf_edf + u
        if utf1 ≥ 100 then
          some (-22,
            { s with
                utf_edf := utf1 - u,
                ptable := s.ptable.set i { p with killed := 1, state := Pstate.ZOMBIE } })
        else
          some (0,
            { s with
                utf_edf := utf1,
                ptable := s.ptable.set i { p with sched_policy := policy } })
    else if policy = 1 then
      let curr_utf_rm := p.execution_time * p.rate * 10
      let tempChk := s.utf_rm + curr_utf_rm
      let chk := chk_lproc (pid - 2)
      if tempChk ≤ chk then
        some (0,
          { s with
              utf_rm := tempChk,
              ptable := s.ptable.set i
                { p with arrival_time := s.ticks, sched_policy := policy } })
      else
        some (-22,
          { s with
              ptable := s.ptable.set i { p with killed := 1, state := Pstate.ZOMBIE } })
    else some (0, s)

/-- Embedding of exec_time (proc.c lines 795-815). -/
def exec_time (s : KState) (pid time : Int) : Int × KState :=
  match findIdxP (pidPred pid) s.ptable with
  | none => (-22, s)
  | some i =>
    (0, { s with ptable := s.ptable.set i { getP s.ptable i with execution_time := time } })

/-- Embedding of deadline (proc.c lines 817-837). -/
def deadline (s : KState) (pid d : Int) : Int × KState :=
  match findIdxP (pidPred pid) s.ptable with
  | none => (-22, s)
  | some i =>
    (0, { s with ptable := s.ptable.set i { getP s.ptable i with deadline := d } })

/-- Embedding of rate (proc.c lines 839-865): store the rate, then derive
the priority as (90 - 3*rate + 28)/29 in C division, clamped below by 1. -/
def rate (s : KState) (pid r : Int) : Int × KState :=
  match findIdxP (pidPred pid) s.ptable with
  | none => (-22, s)
  | some i =>
    let p := getP s.ptable i
    let priority_temp := (90 - 3 * r + 28).tdiv 29
    (0,
      { s with
          ptable := s.ptable.set i
            { p with
                rate := r,
                priority := if priority_temp < 1 then 1 else priority_temp } })

/-- The table paired with slot indices, in scan order. -/
def enumP : Nat → List Proc → List (Nat × Proc)
  | _, [] => []
  | n, p :: l => (n, p) :: enumP (n + 1) l

/-- One comparison step of the rescanning loops inside scheduler()
(proc.c lines 355-367 for EDF, 372-384 for RM), parametrised by the
comparison key (deadline for EDF, priority for RM): skip slots that are
not RUNNABLE, replace the candidate when the key is strictly smaller, and
on an equal key replace it only when the pid is smaller. -/
def pickStep (key : Proc → Int) (c q : Nat × Proc) : Nat × Proc :=
  if q.2.state = Pstate.RUNNABLE then
    if key q.2 ≤ key c.2 then
      if key q.2 = key c.2 then
        if q.2.pid < c.2.pid then q else c
      else q
    else c
  else c

/-- The full rescan of the table starting from candidate c. -/
def pickLoop (key : Proc → Int) (l : List (Nat × Proc)) (c : Nat × Proc) : Nat × Proc :=
  l.foldl (pickStep key) c

/-- Index of the first RUNNABLE slot, the entry point of the selection
loop (proc.c lines 345-347). -/
def firstRunnable? (l : List Proc) : Option Nat := findIdxP runnableB l

/-- One selection of scheduler() (proc.c lines 345-394): find the first
RUNNABLE slot, branch on its sched_policy, rescan the whole table for the
minimum key with pid tie-break, increment elapsed_time of the chosen slot
in the two policy branches (lines 369 and 387; the fallback branch has no
such increment), and mark the chosen slot RUNNING.  Returns the chosen
index and the updated shared state; none when no slot is RUNNABLE. -/
def schedStep (s : KState) : Option (Nat × KState) :=
  match firstRunnable? s.ptable with
  | none => none
  | some i =>
    let p0 := getP s.ptable i
    if p0.sched_policy = 0 then
      let c := pickLoop (fun q => q.deadline) (enumP 0 s.ptable) (i, p0)
      some (c.1,
        { s with
            ptable := s.ptable.set c.1
              { c.2 with elapsed_time := c.2.elapsed_time + 1, state := Pstate.RUNNING } })
    else if p0.sched_policy = 1 then
      let c := pickLoop (fun q => q.priority) (enumP 0 s.ptable) (i, p0)
      some (c.1,
        { s with
            ptable := s.ptable.set c.1
              { c.2 with elapsed_time := c.2.elapsed_time + 1, state := Pstate.RUNNING } })
    else
      some (i, { s with ptable := s.ptable.set i { p0 with state := Pstate.RUNNING } })

/-- One operation on the shared state: an RT parameter setter, an
admission call (sched_policy, whenever it is defined), one scheduler
selection, the return of the RUNNING process to the scheduler loop
(yield sets RUNNABLE, sleep sets SLEEPING, exit sets ZOMBIE; proc.c
lines 441-448, 473-508, 235-276), or a timer tick advancing the clock. -/
inductive Step : KState → KState → Prop where
  | set_dl : ∀ s pid d, Step s (deadline s pid d).2
  | set_et : ∀ s pid t, Step s (exec_time s pid t).2
  | set_rt : ∀ s pid r, Step s (rate s pid r).2
  | set_pol : ∀ s pid pol r s', sched_policy s pid pol = some (r, s') → Step s s'
  | tick : ∀ s j s', schedStep s = some (j, s') → Step s s'
  | pret : ∀ s j st, (getP s.ptable j).state = Pstate.RUNNING →
      (st = Pstate.RUNNABLE ∨ st = Pstate.SLEEPING ∨ st = Pstate.ZOMBIE) →
      Step s { s with ptable := s.ptable.set j { getP s.ptable j with state := st } }
  | clock : ∀ s, Step s { s with ticks := s.ticks + 1 }

/-- The EDF utilization invariant: whenever some slot has been admitted
under EDF, utf_edf is below 100. -/
def EdfInvariant (s : KState) : Prop :=
  (∃ p ∈ s.ptable, p.sched_policy = 0) → s.utf_edf < 100

/-- Lexicographic order on (key, pid) pairs used to state the selection
properties. -/
def lexLe (a b : Int × Int) : Prop := a.1 < b.1 ∨ (a.1 = b.1 ∧ a.2 ≤ b.2)

/-- The comparison pair of a descriptor under a key. -/
def pairK (key : Proc → Int) (q : Proc) : Int × Int := (key q, q.pid)

theorem getP_cons_zero (p : Proc) (l : List Proc) : getP (p :: l) 0 = p := rfl

theorem getP_cons_succ (p : Proc) (l : List Proc) (k : Nat) :
    getP (p :: l) (k + 1) = getP l k := rfl

theorem getP_set_self (l : List Proc) (i : Nat) (q : Proc) (h : i < l.length) :
    getP (l.set i q) i = q := by
  induction l generalizing i with
  | nil => simp at h
  | cons p l ih =>
    cases i with
    | zero => rfl
    | succ k =>
      have : k < l.length := by simpa using h
      simpa [List.set, getP_cons_succ] using ih k this

theorem getP_set_other (l : List Proc) (i j : Nat) (q : Proc) (h : i ≠ j) :
    getP (l.set i q) j = getP l j := by
  induction l generalizing i j with
  | nil => rfl
  | cons p l ih =>
    cases i with
    | zero =>
      cases j with
      | zero => exact absurd rfl h
      | succ k => rfl
    | succ m =>
      cases j with
      | zero => rfl
      | succ k =>
        have : m ≠ k := fun hh => h (by rw [hh])
        simpa [List.set, getP_cons_succ] using ih m k this

theorem getP_mem (l : List Proc) (i : Nat) (h : i < l.length) : getP l i ∈ l := by
  induction l generalizing i with
  | nil => simp at h
  | cons p l ih =>
    cases i with
    | zero => exact List.mem_cons_self _ _
    | succ k =>
      have : k < l.length := by simpa using h
      exact List.mem_cons_of_mem _ (ih k this)

theorem mem_of_set (l : List Proc) (i : Nat) (q a : Proc) (h : a ∈ l.set i q) :
    a ∈ l ∨ a = q := by
  induction l generalizing i with
  | nil => simp at h
  | cons p l ih =>
    cases i with
    | zero =>
      rcases List.mem_cons.mp h with h1 | h1
      · exact Or.inr h1
      · exact Or.inl (List.mem_cons_of_mem _ h1)
    | succ k =>
      rcases List.mem_cons.mp h with h1 | h1
      · exact Or.inl (h1 ▸ List.mem_cons_self _ _)
      · rcases ih k h1 with h2 | h2
        · exact Or.inl (List.mem_cons_of_mem _ h2)
        · exact Or.inr h2

theorem findIdxP_some (pred : Proc → Bool) (l : List Proc) (i : Nat)
    (h : findIdxP pred l = some i) : i < l.length ∧ pred (getP l i) = true := by
  induction l generalizing i with
  | nil => simp [findIdxP] at h
  | cons p l ih =>
    by_cases hp : pred p
    · simp [findIdxP, hp] at h
      subst h
      exact ⟨Nat.succ_pos _, by simpa [getP_cons_zero] using hp⟩
    · simp [findIdxP, hp] at h
      rcases h with ⟨k, hk, rfl⟩
      rcases ih k hk with ⟨h1, h2⟩
      exact ⟨by simpa using Nat.succ_lt_succ h1, by simpa [getP_cons_succ] using h2⟩

theorem enumP_mem (l : List Proc) :
    ∀ (n j : Nat) (q : Proc), (j, q) ∈ enumP n l →
      n ≤ j ∧ j - n < l.length ∧ getP l (j - n) = q := by
  induction l with
  | nil => intro n j q h; simp [enumP] at h
  | cons p l ih =>
    intro n j q h
    rcases List.mem_cons.mp h with h1 | h1
    · cases h1
      exact ⟨le_refl _, by simp, by simp [getP_cons_zero]⟩
    · rcases ih (n + 1) j q h1 with ⟨h2, h3, h4⟩
      refine ⟨by omega, by simp; omega, ?_⟩
      have : j - n = (j - (n + 1)) + 1 := by omega
      rw [this, getP_cons_succ]
      exact h4

theorem enumP_mem_of_lt (l : List Proc) :
    ∀ (n j : Nat), j < l.length → (n + j, getP l j) ∈ enumP n l := by
  induction l with
  | nil => intro n j h; simp at h
  | cons p l ih =>
    intro n j h
    cases j with
    | zero => simp [enumP, getP_cons_zero]
    | succ k =>
      have hk : k < l.length := by simpa using h
      have := ih (n + 1) k hk
      simp only [enumP, List.mem_cons]
      right
      have harith : n + (k + 1) = (n + 1) + k := by omega
      rw [harith, getP_cons_succ]
      exact this

theorem lexLe_refl (a : Int × Int) : lexLe a a := by
  unfold lexLe; omega

theorem lexLe_trans (a b c : Int × Int) (h1 : lexLe a b) (h2 : lexLe b c) : lexLe a c := by
  unfold lexLe at *; omega

theorem pickStep_cases (key : Proc → Int) (c q : Nat × Proc) :
    (pickStep key c q = q ∧ q.2.state = Pstate.RUNNABLE ∧
        lexLe (pairK key q.2) (pairK key c.2)) ∨
    (pickStep key c q = c ∧
        (q.2.state = Pstate.RUNNABLE → lexLe (pairK key c.2) (pairK key q.2))) := by
  unfold pickStep
  split_ifs with h1 h2 h3 h4
  · exact Or.inl ⟨rfl, h1, by unfold lexLe pairK; omega⟩
  · exact Or.inr ⟨rfl, fun _ => by unfold lexLe pairK; omega⟩
  · exact Or.inl ⟨rfl, h1, by unfold lexLe pairK; omega⟩
  · exact Or.inr ⟨rfl, fun _ => by unfold lexLe pairK; omega⟩
  · exact Or.inr ⟨rfl, fun hr => absurd hr h1⟩

theorem pickLoop_spec (key : Proc → Int) :
    ∀ (l : List (Nat × Proc)) (c : Nat × Proc),
      (pickLoop key l c = c ∨
        (pickLoop key l c ∈ l ∧ (pickLoop key l c).2.state = Pstate.RUNNABLE)) ∧
      lexLe (pairK key (pickLoop key l c).2) (pairK key c.2) ∧
      ∀ q ∈ l, q.2.state = Pstate.RUNNABLE →
        lexLe (pairK key (pickLoop key l c).2) (pairK key q.2) := by
  intro l
  induction l with
  | nil =>
    intro c
    refine ⟨Or.inl rfl, lexLe_refl _, ?_⟩
    intro q hq
    simp at hq
  | cons a l ih =>
    intro c
    have hstep : pickLoop key (a :: l) c = pickLoop key l (pickStep key c a) := by
      simp [pickLoop, List.foldl_cons]
    rcases ih (pickStep key c a) with ⟨ihmem, ihle, ihall⟩
    rcases pickStep_cases key c a with ⟨heq, hrun, hle⟩ | ⟨heq, hdom⟩
    · rw [heq] at ihmem ihle ihall
      refine ⟨?_, ?_, ?_⟩
      · rcases ihmem with h | ⟨h, h2⟩
        · rw [hstep, heq] at *
          exact Or.inr ⟨by rw [h]; exact List.mem_cons_self _ _, by rw [h]; exact hrun⟩
        · rw [hstep, heq]
          exact Or.inr ⟨List.mem_cons_of_mem _ h, h2⟩
      · rw [hstep, heq]
        exact lexLe_trans _ _ _ ihle hle
      · intro q hq hqr
        rw [hstep, heq]
        rcases List.mem_cons.mp hq with h | h
        · rw [h]
          exact ihle
        · exact ihall q h hqr
    · rw [heq] at ihmem ihle ihall
      refine ⟨?_, ?_, ?_⟩
      · rcases ihmem with h | ⟨h, h2⟩
        · rw [hstep, heq]
          exact Or.inl h
        · rw [hstep, heq]
          exact Or.inr ⟨List.mem_cons_of_mem _ h, h2⟩
      · rw [hstep, heq]
        exact ihle
      · intro q hq hqr
        rw [hstep, heq]
        rcases List.mem_cons.mp hq with h | h
        · rw [h]
          exact lexLe_trans _ _ _ ihle (hdom (h ▸ hqr))
        · exact ihall q h hqr

/-- The fold result is always a consistent (index, descriptor) pair of the
table and is RUNNABLE, provided the starting candidate is. -/
theorem pickLoop_consistent (key : Proc → Int) (l : List Proc) (i : Nat)
    (hi : i < l.length) (hrun : (getP l i).state = Pstate.RUNNABLE) :
    (pickLoop key (enumP 0 l) (i, getP l i)).1 < l.length ∧
    getP l (pickLoop key (enumP 0 l) (i, getP l i)).1 =
      (pickLoop key (enumP 0 l) (i, getP l i)).2 ∧
    (pickLoop key (enumP 0 l) (i, getP l i)).2.state = Pstate.RUNNABLE := by
  rcases pickLoop_spec key (enumP 0 l) (i, getP l i) with ⟨hmem, -, -⟩
  rcases hmem with h | ⟨h, h2⟩
  · rw [h]
    exact ⟨hi, rfl, hrun⟩
  · rcases enumP_mem l 0 _ _ (by
      have : ((pickLoop key (enumP 0 l) (i, getP l i)).1,
              (pickLoop key (enumP 0 l) (i, getP l i)).2) ∈ enumP 0 l := by
        simpa using h
      exact this) with ⟨-, hlt, hget⟩
    simp at hlt hget
    exact ⟨hlt, hget, h2⟩

/-- The C clamp if (t < 1) 1 else t applied to truncating division agrees
with max 1 of the floor division, for every integer numerator. -/
theorem clamp_tdiv_eq_max_fdiv (n : Int) :
    (if n.tdiv 29 < 1 then (1 : Int) else n.tdiv 29) = max 1 (n.fdiv 29) := by
  have hf : n.fdiv 29 = n / 29 := Int.fdiv_eq_ediv n (by norm_num)
  rcases le_or_lt 0 n with hn | hn
  · have ht : n.tdiv 29 = n / 29 := Int.tdiv_eq_ediv hn (by norm_num)
    rw [ht, hf, max_def]
    split_ifs <;> omega
  · have h1 : (0 : Int) ≤ -n := by omega
    have h2 : (-n).tdiv 29 = (-n) / 29 := Int.tdiv_eq_ediv h1 (by norm_num)
    have h3 : n.tdiv 29 = -((-n).tdiv 29) := by
      rw [Int.neg_tdiv, neg_neg]
    have h4 : 0 ≤ (-n) / 29 := by omega
    have h5 : n.tdiv 29 ≤ 0 := by omega
    have h6 : n / 29 < 1 := by omega
    rw [hf, max_def]
    split_ifs <;> omega

/-- Truncating division agrees with floor division on nonnegative
numerators and positive denominators. -/
theorem tdiv_eq_fdiv_nonneg (a b : Int) (ha : 0 ≤ a) (hb : 0 < b) :
    a.tdiv b = a.fdiv b := by
  rw [Int.tdiv_eq_ediv ha (le_of_lt hb), Int.fdiv_eq_ediv a (le_of_lt hb)]

theorem getP_oob (l : List Proc) (i : Nat) (h : l.length ≤ i) : getP l i = proc0 :=
  List.getD_eq_default _ _ h

/-- Writing a slot whose state is either preserved or set to ZOMBIE can
never turn a ZOMBIE slot into anything else. -/
theorem zombie_after_set (l : List Proc) (i k : Nat) (q : Proc)
    (hstate : q.state = (getP l i).state ∨ q.state = Pstate.ZOMBIE)
    (hz : (getP l k).state = Pstate.ZOMBIE) :
    (getP (l.set i q) k).state = Pstate.ZOMBIE := by
  by_cases hik : i = k
  · subst hik
    by_cases hlen : i < l.length
    · rw [getP_set_self _ _ _ hlen]
      rcases hstate with h | h
      · rw [h, hz]
      · exact h
    · rw [List.set_eq_of_length_le (by omega)]
      exact hz
  · rw [getP_set_other _ _ _ _ hik]
    exact hz

/-- Writing slot i with contents whose policy either matches the old slot
or is not EDF cannot create an EDF-admitted slot out of nothing. -/
theorem exists_edf_of_set (l : List Proc) (i : Nat) (q : Proc) (hi : i < l.length)
    (hq : q.sched_policy = (getP l i).sched_policy ∨ q.sched_policy ≠ 0)
    (h : ∃ p ∈ l.set i q, p.sched_policy = 0) : ∃ p ∈ l, p.sched_policy = 0 := by
  rcases h with ⟨a, ha, ha0⟩
  rcases mem_of_set l i q a ha with hm | rfl
  · exact ⟨a, hm, ha0⟩
  · rcases hq with hh | hh
    · exact ⟨getP l i, getP_mem l i hi, by rw [← hh]; exact ha0⟩
    · exact absurd ha0 hh

/-- Every successful scheduler selection picks a slot that was RUNNABLE,
and only rewrites that slot, marking it RUNNING and keeping its policy. -/
theorem schedStep_shape (s : KState) (j : Nat) (s' : KState)
    (h : schedStep s = some (j, s')) :
    ∃ q : Proc, j < s.ptable.length ∧ (getP s.ptable j).state = Pstate.RUNNABLE ∧
      s' = { s with ptable := s.ptable.set j q } ∧
      q.sched_policy = (getP s.ptable j).sched_policy ∧
      q.state = Pstate.RUNNING := by
  unfold schedStep at h
  cases hf : firstRunnable? s.ptable with
  | none => rw [hf] at h; simp at h
  | some i =>
    rw [hf] at h
    rcases findIdxP_some _ _ _ hf with ⟨hi, hrun⟩
    have hruni : (getP s.ptable i).state = Pstate.RUNNABLE := by
      simpa [runnableB] using hrun
    dsimp only at h
    split_ifs at h with h0 h1
    · rcases pickLoop_consistent (fun q => q.deadline) s.ptable i hi hruni with ⟨hc1, hc2, hc3⟩
      simp only [Option.some.injEq, Prod.mk.injEq] at h
      rcases h with ⟨rfl, rfl⟩
      refine ⟨_, hc1, by rw [hc2]; exact hc3, rfl, ?_, rfl⟩
      rw [hc2]
    · rcases pickLoop_consistent (fun q => q.priority) s.ptable i hi hruni with ⟨hc1, hc2, hc3⟩
      simp only [Option.some.injEq, Prod.mk.injEq] at h
      rcases h with ⟨rfl, rfl⟩
      refine ⟨_, hc1, by rw [hc2]; exact hc3, rfl, ?_, rfl⟩
      rw [hc2]
    · simp only [Option.some.injEq, Prod.mk.injEq] at h
      rcases h with ⟨rfl, rfl⟩
      exact ⟨_, hi, hruni, rfl, rfl, rfl⟩

theorem exec_time_shape (s : KState) (pid t : Int) :
    (exec_time s pid t).2 = s ∨
    ∃ i q, i < s.ptable.length ∧ q.sched_policy = (getP s.ptable i).sched_policy ∧
      q.state = (getP s.ptable i).state ∧
      (exec_time s pid t).2 = { s with ptable := s.ptable.set i q } := by
  unfold exec_time
  cases hf : findIdxP (pidPred pid) s.ptable with
  | none => exact Or.inl rfl
  | some i =>
    rcases findIdxP_some _ _ _ hf with ⟨hi, -⟩
    refine Or.inr ⟨i, { getP s.ptable i with execution_time := t }, hi, rfl, rfl, rfl⟩

theorem deadline_shape (s : KState) (pid d : Int) :
    (deadline s pid d).2 = s ∨
    ∃ i q, i < s.ptable.length ∧ q.sched_policy = (getP s.ptable i).sched_policy ∧
      q.state = (getP s.ptable i).state ∧
      (deadline s pid d).2 = { s with ptable := s.ptable.set i q } := by
  unfold deadline
  cases hf : findIdxP (pidPred pid) s.ptable with
  | none => exact Or.inl rfl
  | some i =>
    rcases findIdxP_some _ _ _ hf with ⟨hi, -⟩
    refine Or.inr ⟨i, { getP s.ptable i with deadline := d }, hi, rfl, rfl, rfl⟩

theorem rate_shape (s : KState) (pid r : Int) :
    (rate s pid r).2 = s ∨
    ∃ i q, i < s.ptable.length ∧ q.sched_policy = (getP s.ptable i).sched_policy ∧
      q.state = (getP s.ptable i).state ∧
      (rate s pid r).2 = { s with ptable := s.ptable.set i q } := by
  unfold rate
  cases hf : findIdxP (pidPred pid) s.ptable with
  | none => exact Or.inl rfl
  | some i =>
    rcases findIdxP_some _ _ _ hf with ⟨hi, -⟩
    refine Or.inr ⟨i,
      { getP s.ptable i with
          rate := r,
          priority := if (90 - 3 * r + 28).tdiv 29 < 1 then 1 else (90 - 3 * r + 28).tdiv 29 },
      hi, rfl, rfl, rfl⟩

/-- Case analysis of every outcome of sched_policy: untouched state (pid
absent or unknown policy value), admission rejection (slot killed and made
ZOMBIE, counters in the end unchanged, -22), EDF acceptance (utf_edf
strictly below 100 afterwards), or RM acceptance (utf_edf untouched). -/
theorem sp_shape (s : KState) (pid pol r : Int) (s' : KState)
    (h : sched_policy s pid pol = some (r, s')) :
    (s' = s ∧ r = 0) ∨
    (∃ i q, findIdxP (pidPred pid) s.ptable = some i ∧ i < s.ptable.length ∧
       q.sched_policy = (getP s.ptable i).sched_policy ∧ q.state = Pstate.ZOMBIE ∧
       s'.ptable = s.ptable.set i q ∧ s'.utf_edf = s.utf_edf ∧ s'.utf_rm = s.utf_rm ∧
       r = -22) ∨
    (∃ i q, findIdxP (pidPred pid) s.ptable = some i ∧ i < s.ptable.length ∧
       q.sched_policy = 0 ∧ q.state = (getP s.ptable i).state ∧
       s'.ptable = s.ptable.set i q ∧ s'.utf_edf < 100 ∧ s'.utf_rm = s.utf_rm ∧
       r = 0) ∨
    (∃ i q, findIdxP (pidPred pid) s.ptable = some i ∧ i < s.ptable.length ∧
       q.sched_policy = 1 ∧ q.state = (getP s.ptable i).state ∧
       s'.ptable = s.ptable.set i q ∧ s'.utf_edf = s.utf_edf ∧ r = 0) := by
  unfold sched_policy at h
  cases hf : findIdxP (pidPred pid) s.ptable with
  | none =>
    rw [hf] at h
    simp only [Option.some.injEq, Prod.mk.injEq] at h
    exact Or.inl ⟨h.2.symm, h.1.symm⟩
  | some i =>
    rw [hf] at h
    rcases findIdxP_some _ _ _ hf with ⟨hi, -⟩
    dsimp only at h
    by_cases h0 : pol = 0
    · rw [if_pos h0] at h
      by_cases hd : (getP s.ptable i).deadline = 0
      · rw [if_pos hd] at h
        exact absurd h (by simp)
      · rw [if_neg hd] at h
        by_cases h100 : s.utf_edf +
            ((getP s.ptable i).execution_time * 100).tdiv (getP s.ptable i).deadline ≥ 100
        · rw [if_pos h100] at h
          simp only [Option.some.injEq, Prod.mk.injEq] at h
          rcases h with ⟨hr, hs⟩
          subst hs
          refine Or.inr (Or.inl ⟨i,
            { getP s.ptable i with killed := 1, state := Pstate.ZOMBIE },
            rfl, hi, rfl, rfl, rfl, ?_, rfl, hr.symm⟩)
          dsimp only
          omega
        · rw [if_neg h100] at h
          simp only [Option.some.injEq, Prod.mk.injEq] at h
          rcases h with ⟨hr, hs⟩
          subst hs
          refine Or.inr (Or.inr (Or.inl ⟨i,
            { getP s.ptable i with sched_policy := pol },
            rfl, hi, h0, rfl, rfl, ?_, rfl, hr.symm⟩))
          dsimp only
          omega
    · rw [if_neg h0] at h
      by_cases h1 : pol = 1
      · rw [if_pos h1] at h
        by_cases hle : s.utf_rm +
            (getP s.ptable i).execution_time * (getP s.ptable i).rate * 10 ≤ chk_lproc (pid - 2)
        · rw [if_pos hle] at h
          simp only [Option.some.injEq, Prod.mk.injEq] at h
          rcases h with ⟨hr, hs⟩
          subst hs
          exact Or.inr (Or.inr (Or.inr ⟨i,
            { getP s.ptable i with arrival_time := s.ticks, sched_policy := pol },
            rfl, hi, h1, rfl, rfl, rfl, hr.symm⟩))
        · rw [if_neg hle] at h
          simp only [Option.some.injEq, Prod.mk.injEq] at h
          rcases h with ⟨hr, hs⟩
          subst hs
          exact Or.inr (Or.inl ⟨i,
            { getP s.ptable i with killed := 1, state := Pstate.ZOMBIE },
            rfl, hi, rfl, rfl, rfl, rfl, rfl, hr.symm⟩)
      · rw [if_neg h1] at h
        simp only [Option.some.injEq, Prod.mk.injEq] at h
        exact Or.inl ⟨h.2.symm, h.1.symm⟩

/-- Every single operation preserves the EDF utilization invariant. -/
theorem step_edfInv (s s' : KState) (h : Step s s') :
    EdfInvariant s → EdfInvariant s' := by
  intro hinv
  cases h with
  | set_dl pid d =>
    rcases deadline_shape _ pid d with hs | ⟨i, q, hi, hq, -, hs⟩
    · rw [hs]; exact hinv
    · rw [hs]
      intro hex
      exact hinv (exists_edf_of_set _ _ _ hi (Or.inl hq) hex)
  | set_et pid t =>
    rcases exec_time_shape _ pid t with hs | ⟨i, q, hi, hq, -, hs⟩
    · rw [hs]; exact hinv
    · rw [hs]
      intro hex
      exact hinv (exists_edf_of_set _ _ _ hi (Or.inl hq) hex)
  | set_rt pid r =>
    rcases rate_shape _ pid r with hs | ⟨i, q, hi, hq, -, hs⟩
    · rw [hs]; exact hinv
    · rw [hs]
      intro hex
      exact hinv (exists_edf_of_set _ _ _ hi (Or.inl hq) hex)
  | set_pol pid pol r s2 hsp =>
    rcases sp_shape _ pid pol r _ hsp with ⟨hs, -⟩ | h2 | h3 | h4
    · rw [hs]; exact hinv
    · rcases h2 with ⟨i, q, -, hi, hq, -, hpt, hutf, -, -⟩
      intro hex
      rw [hpt] at hex
      rw [hutf]
      exact hinv (exists_edf_of_set _ _ _ hi (Or.inl hq) hex)
    · rcases h3 with ⟨i, q, -, hi, -, -, -, hutf, -, -⟩
      intro hex
      exact hutf
    · rcases h4 with ⟨i, q, -, hi, hq1, -, hpt, hutf, -⟩
      intro hex
      rw [hpt] at hex
      rw [hutf]
      refine hinv (exists_edf_of_set _ _ _ hi (Or.inr ?_) hex)
      rw [hq1]
      omega
  | tick j s2 hst =>
    rcases schedStep_shape _ j _ hst with ⟨q, hj, -, hs, hq, -⟩
    rw [hs]
    intro hex
    exact hinv (exists_edf_of_set _ _ _ hj (Or.inl hq) hex)
  | pret j st hrun hst =>
    intro hex
    by_cases hjlen : j < s.ptable.length
    · exact hinv (exists_edf_of_set s.ptable j { getP s.ptable j with state := st }
        hjlen (Or.inl rfl) hex)
    · rw [getP_oob s.ptable j (by omega)] at hrun
      exact absurd hrun (by simp [proc0])
  | clock =>
    intro hex
    exact hinv hex

/-- Every single operation leaves a ZOMBIE slot ZOMBIE. -/
theorem step_zombie (s s' : KState) (k : Nat) (h : Step s s')
    (hz : (getP s.ptable k).state = Pstate.ZOMBIE) :
    (getP s'.ptable k).state = Pstate.ZOMBIE := by
  cases h with
  | set_dl pid d =>
    rcases deadline_shape _ pid d with hs | ⟨i, q, hi, -, hq, hs⟩
    · rw [hs]; exact hz
    · rw [hs]
      exact zombie_after_set _ _ _ _ (Or.inl hq) hz
  | set_et pid t =>
    rcases exec_time_shape _ pid t with hs | ⟨i, q, hi, -, hq, hs⟩
    · rw [hs]; exact hz
    · rw [hs]
      exact zombie_after_set _ _ _ _ (Or.inl hq) hz
  | set_rt pid r =>
    rcases rate_shape _ pid r with hs | ⟨i, q, hi, -, hq, hs⟩
    · rw [hs]; exact hz
    · rw [hs]
      exact zombie_after_set _ _ _ _ (Or.inl hq) hz
  | set_pol pid pol r s2 hsp =>
    rcases sp_shape _ pid pol r _ hsp with ⟨hs, -⟩ | h2 | h3 | h4
    · rw [hs]; exact hz
    · rcases h2 with ⟨i, q, -, hi, -, hqz, hpt, -, -, -⟩
      rw [hpt]
      exact zombie_after_set _ _ _ _ (Or.inr hqz) hz
    · rcases h3 with ⟨i, q, -, hi, -, hqs, hpt, -, -, -⟩
      rw [hpt]
      exact zombie_after_set _ _ _ _ (Or.inl hqs) hz
    · rcases h4 with ⟨i, q, -, hi, -, hqs, hpt, -, -⟩
      rw [hpt]
      exact zombie_after_set _ _ _ _ (Or.inl hqs) hz
  | tick j s2 hst =>
    rcases schedStep_shape _ j _ hst with ⟨q, hj, hjrun, hs, -, -⟩
    have hjk : j ≠ k := by
      intro he
      rw [he, hz] at hjrun
      cases hjrun
    rw [hs]
    dsimp only
    rw [getP_set_other _ _ _ _ hjk]
    exact hz
  | pret j st hrun hst =>
    have hjk : j ≠ k := by
      intro he
      rw [he, hz] at hrun
      cases hrun
    dsimp only
    rw [getP_set_other _ _ _ _ hjk]
    exact hz
  | clock =>
    exact hz

theorem nodup_pid_ne (l : List Proc) (hnd : (l.map Proc.pid).Nodup) :
    ∀ a b : Nat, a < l.length → b < l.length → a ≠ b →
      (getP l a).pid ≠ (getP l b).pid := by
  induction l with
  | nil => intro a b ha; simp at ha
  | cons p l ih =>
    intro a b ha hb hab
    have hnd' : p.pid ∉ l.map Proc.pid ∧ (l.map Proc.pid).Nodup := by
      simpa [List.nodup_cons] using hnd
    cases a with
    | zero =>
      cases b with
      | zero => exact absurd rfl hab
      | succ k =>
        have hk : k < l.length := by simpa using hb
        rw [getP_cons_zero, getP_cons_succ]
        intro he
        exact hnd'.1 (he ▸ List.mem_map_of_mem Proc.pid (getP_mem l k hk))
    | succ m =>
      cases b with
      | zero =>
        have hm : m < l.length := by simpa using ha
        rw [getP_cons_zero, getP_cons_succ]
        intro he
        exact hnd'.1 (he ▸ List.mem_map_of_mem Proc.pid (getP_mem l m hm))
      | succ k =>
        have hm : m < l.length := by simpa using ha
        have hk : k < l.length := by simpa using hb
        rw [getP_cons_succ, getP_cons_succ]
        exact ih hnd'.2 m k hm hk (fun he => hab (by rw [he]))

/-- The rescan starting at the first RUNNABLE slot returns a RUNNABLE slot
that is the strict (key, pid)-lexicographic minimum among all RUNNABLE
slots, as soon as the table carries no duplicate pid. -/
theorem pick_min (key : Proc → Int) (l : List Proc) (i : Nat)
    (hnd : (l.map Proc.pid).Nodup)
    (hi : i < l.length) (hri : (getP l i).state = Pstate.RUNNABLE) :
    (getP l (pickLoop key (enumP 0 l) (i, getP l i)).1).state = Pstate.RUNNABLE ∧
    ∀ k, k < l.length → (getP l k).state = Pstate.RUNNABLE →
      k ≠ (pickLoop key (enumP 0 l) (i, getP l i)).1 →
      key (getP l (pickLoop key (enumP 0 l) (i, getP l i)).1) < key (getP l k) ∨
      (key (getP l (pickLoop key (enumP 0 l) (i, getP l i)).1) = key (getP l k) ∧
        (getP l (pickLoop key (enumP 0 l) (i, getP l i)).1).pid < (getP l k).pid) := by
  rcases pickLoop_consistent key l i hi hri with ⟨hc1, hc2, hc3⟩
  constructor
  · rw [hc2]
    exact hc3
  · intro k hk hrk hkne
    have hmem : (k, getP l k) ∈ enumP 0 l := by
      have := enumP_mem_of_lt l 0 k hk
      simpa using this
    have hle := (pickLoop_spec key (enumP 0 l) (i, getP l i)).2.2 (k, getP l k) hmem hrk
    have hpid : (getP l (pickLoop key (enumP 0 l) (i, getP l i)).1).pid ≠ (getP l k).pid :=
      nodup_pid_ne l hnd _ k hc1 hk (fun he => hkne he.symm)
    rw [hc2]
    rw [hc2] at hpid
    unfold lexLe pairK at hle
    dsimp only at hle
    omega

/-- C1: For every call set_policy(pid, Edf) on a process present in the
table with deadline > 0 (and the execution budget nonnegative, as the data
model requires): with u = floor(100*exec_time/deadline), if
util_edf + u >= 100 then util_edf is left unchanged (the tentative add is
reverted), the process gets killed = 1 and state = Zombie, and the call
returns -22; otherwise util_edf becomes util_edf + u, the process's policy
becomes Edf, and the call returns 0. -/
theorem C1_edf_admission (s : KState) (pid : Int) (i : Nat)
    (hfind : findIdxP (pidPred pid) s.ptable = some i)
    (hdl : 0 < (getP s.ptable i).deadline)
    (het : 0 ≤ (getP s.ptable i).execution_time) :
    (100 ≤ s.utf_edf +
        (100 * (getP s.ptable i).execution_time).fdiv (getP s.ptable i).deadline →
      sched_policy s pid 0 = some (-22,
        { s with
            ptable := s.ptable.set i
              { getP s.ptable i with killed := 1, state := Pstate.ZOMBIE } })) ∧
    (s.utf_edf +
        (100 * (getP s.ptable i).execution_time).fdiv (getP s.ptable i).deadline < 100 →
      sched_policy s pid 0 = some (0,
        { s with
            utf_edf := s.utf_edf +
              (100 * (getP s.ptable i).execution_time).fdiv (getP s.ptable i).deadline,
            ptable := s.ptable.set i
              { getP s.ptable i with sched_policy := 0 } })) := by
  have hu : ((getP s.ptable i).execution_time * 100).tdiv (getP s.ptable i).deadline =
      (100 * (getP s.ptable i).execution_time).fdiv (getP s.ptable i).deadline := by
    rw [mul_comm]
    exact tdiv_eq_fdiv_nonneg _ _ (by omega) hdl
  constructor
  · intro hc
    unfold sched_policy
    rw [hfind]
    dsimp only
    rw [if_pos rfl, if_neg (by omega), if_pos (by omega)]
    simp only [Option.some.injEq, Prod.mk.injEq, KState.mk.injEq, and_true, true_and,
      eq_self_iff_true]
    omega
  · intro hc
    unfold sched_policy
    rw [hfind]
    dsimp only
    rw [if_pos rfl, if_neg (by omega), if_neg (by omega)]
    simp only [Option.some.injEq, Prod.mk.injEq, KState.mk.injEq, and_true, true_and,
      eq_self_iff_true]
    omega

def pC1 : Proc :=
  { proc0 with pid := 2, state := Pstate.RUNNABLE, deadline := 10, execution_time := 5 }

def sC1 : KState := { ptable := [pC1], utf_edf := 0, utf_rm := 0, ticks := 0 }

/-- C1 witness: a concrete EDF admission that succeeds (u = 50 < 100). -/
theorem C1_edf_admission_witness :
    sched_policy sC1 2 0 = some (0,
      { sC1 with
          utf_edf := sC1.utf_edf +
            (100 * (getP sC1.ptable 0).execution_time).fdiv (getP sC1.ptable 0).deadline,
          ptable := sC1.ptable.set 0
            { getP sC1.ptable 0 with sched_policy := 0 } }) :=
  (C1_edf_admission sC1 2 0 (by decide) (by decide) (by decide)).2 (by decide)

/-- C2: For every call set_policy(pid, Rm) on a process present in the
table: with u = exec_time*rate*10 and n = pid - 2, if util_rm + u <= LL(n)
(LL the tabulated Liu-Layland milli-utilization bound chk_lproc, with
LL(1)=1000, LL(2)=828, LL(3)=779 and 696 from n = 63 on) then util_rm
becomes util_rm + u, arrival_time is set to the current tick, policy
becomes Rm and the call returns 0; otherwise util_rm is unchanged, the
process gets killed = 1 and state = Zombie, and the call returns -22. -/
theorem C2_rm_admission (s : KState) (pid : Int) (i : Nat)
    (hfind : findIdxP (pidPred pid) s.ptable = some i) :
    (s.utf_rm + (getP s.ptable i).execution_time * (getP s.ptable i).rate * 10 ≤
        chk_lproc (pid - 2) →
      sched_policy s pid 1 = some (0,
        { s with
            utf_rm := s.utf_rm +
              (getP s.ptable i).execution_time * (getP s.ptable i).rate * 10,
            ptable := s.ptable.set i
              { getP s.ptable i with arrival_time := s.ticks, sched_policy := 1 } })) ∧
    (chk_lproc (pid - 2) <
        s.utf_rm + (getP s.ptable i).execution_time * (getP s.ptable i).rate * 10 →
      sched_policy s pid 1 = some (-22,
        { s with
            ptable := s.ptable.set i
              { getP s.ptable i with killed := 1, state := Pstate.ZOMBIE } })) ∧
    chk_lproc 1 = 1000 ∧ chk_lproc 2 = 828 ∧ chk_lproc 3 = 779 ∧
    (∀ n : Int, 63 ≤ n → chk_lproc n = 696) := by
  refine ⟨?_, ?_, by decide, by decide, by decide, ?_⟩
  · intro hc
    unfold sched_policy
    rw [hfind]
    dsimp only
    rw [if_neg (by omega), if_pos rfl, if_pos hc]
  · intro hc
    unfold sched_policy
    rw [hfind]
    dsimp only
    rw [if_neg (by omega), if_pos rfl, if_neg (by omega)]
  · intro n hn
    rcases eq_or_lt_of_le hn with h63 | h64
    · rw [← h63]
      decide
    · unfold chk_lproc
      repeat rw [if_neg (by omega)]

def pC2 : Proc :=
  { proc0 with pid := 3, state := Pstate.RUNNABLE, execution_time := 1, rate := 10 }

def sC2 : KState := { ptable := [pC2], utf_edf := 0, utf_rm := 0, ticks := 42 }

/-- C2 witness: a concrete RM admission (pid 3, so n = 1 and LL = 1000;
u = 100 <= 1000) that commits and stamps the arrival time. -/
theorem C2_rm_admission_witness :
    sched_policy sC2 3 1 = some (0,
      { sC2 with
          utf_rm := sC2.utf_rm +
            (getP sC2.ptable 0).execution_time * (getP sC2.ptable 0).rate * 10,
          ptable := sC2.ptable.set 0
            { getP sC2.ptable 0 with arrival_time := sC2.ticks, sched_policy := 1 } }) :=
  (C2_rm_admission sC2 3 0 (by decide)).1 (by decide)

/-- C3: whenever some process is Runnable, if the first Runnable process
found by the scheduler's scan has policy Edf the selected process is the
Runnable process with the lexicographically minimum (deadline, pid); if it
has policy Rm, the selected one has minimum (priority, pid); with distinct
pids in the table, ties on the key go to the smaller pid and the minimum
is strict against every other Runnable slot, so selection is
deterministic. -/
theorem C3_selection (s : KState) (i j : Nat) (s' : KState)
    (hnd : (s.ptable.map Proc.pid).Nodup)
    (hfirst : firstRunnable? s.ptable = some i)
    (hstep : schedStep s = some (j, s')) :
    ((getP s.ptable i).sched_policy = 0 →
      (getP s.ptable j).state = Pstate.RUNNABLE ∧
      ∀ k, k < s.ptable.length → (getP s.ptable k).state = Pstate.RUNNABLE → k ≠ j →
        (getP s.ptable j).deadline < (getP s.ptable k).deadline ∨
        ((getP s.ptable j).deadline = (getP s.ptable k).deadline ∧
          (getP s.ptable j).pid < (getP s.ptable k).pid)) ∧
    ((getP s.ptable i).sched_policy = 1 →
      (getP s.ptable j).state = Pstate.RUNNABLE ∧
      ∀ k, k < s.ptable.length → (getP s.ptable k).state = Pstate.RUNNABLE → k ≠ j →
        (getP s.ptable j).priority < (getP s.ptable k).priority ∨
        ((getP s.ptable j).priority = (getP s.ptable k).priority ∧
          (getP s.ptable j).pid < (getP s.ptable k).pid)) := by
  have hfind : findIdxP runnableB s.ptable = some i := hfirst
  rcases findIdxP_some _ _ _ hfind with ⟨hi, hriB⟩
  have hri : (getP s.ptable i).state = Pstate.RUNNABLE := by
    simpa [runnableB] using hriB
  unfold schedStep at hstep
  rw [hfirst] at hstep
  dsimp only at hstep
  constructor
  · intro hpol
    rw [if_pos hpol] at hstep
    simp only [Option.some.injEq, Prod.mk.injEq] at hstep
    rcases hstep with ⟨hj, -⟩
    subst hj
    exact pick_min (fun q => q.deadline) s.ptable i hnd hi hri
  · intro hpol
    rw [if_neg (by omega), if_pos hpol] at hstep
    simp only [Option.some.injEq, Prod.mk.injEq] at hstep
    rcases hstep with ⟨hj, -⟩
    subst hj
    exact pick_min (fun q => q.priority) s.ptable i hnd hi hri

def pC3a : Proc :=
  { proc0 with pid := 3, state := Pstate.RUNNABLE, sched_policy := 0, deadline := 20 }

def pC3b : Proc :=
  { proc0 with pid := 4, state := Pstate.RUNNABLE, sched_policy := 0, deadline := 10 }

def sC3 : KState := { ptable := [pC3a, pC3b], utf_edf := 0, utf_rm := 0, ticks := 0 }

def sC3run : KState :=
  { sC3 with
      ptable := [pC3a, { pC3b with elapsed_time := 1, state := Pstate.RUNNING }] }

/-- C3 witness: with two runnable EDF slots (pid 3 deadline 20, pid 4
deadline 10) the scan selects slot 1 (deadline 10), which is strictly
smaller than slot 0 on the (deadline, pid) key. -/
theorem C3_selection_witness :
    (getP sC3.ptable 1).state = Pstate.RUNNABLE ∧
    ((getP sC3.ptable 1).deadline < (getP sC3.ptable 0).deadline ∨
      ((getP sC3.ptable 1).deadline = (getP sC3.ptable 0).deadline ∧
        (getP sC3.ptable 1).pid < (getP sC3.ptable 0).pid)) := by
  have h := (C3_selection sC3 0 1 sC3run (by decide) (by decide) (by decide)).1 (by decide)
  exact ⟨h.1, h.2 0 (by decide) (by decide) (by decide)⟩

/-- C4: For every call set_rate(pid, r) on a process present in the table,
the rate becomes r and the priority becomes max(1, floor((90-3r+28)/29));
in particular the formula yields priority 3 for rate 1, 3 for rate 10,
2 for rate 20 and 1 for rate 30. -/
theorem C4_rate_priority (s : KState) (pid r : Int) (i : Nat)
    (hfind : findIdxP (pidPred pid) s.ptable = some i) :
    (rate s pid r).1 = 0 ∧
    (getP (rate s pid r).2.ptable i).rate = r ∧
    (getP (rate s pid r).2.ptable i).priority = max 1 ((90 - 3 * r + 28).fdiv 29) ∧
    max 1 ((90 - 3 * (1 : Int) + 28).fdiv 29) = 3 ∧
    max 1 ((90 - 3 * (10 : Int) + 28).fdiv 29) = 3 ∧
    max 1 ((90 - 3 * (20 : Int) + 28).fdiv 29) = 2 ∧
    max 1 ((90 - 3 * (30 : Int) + 28).fdiv 29) = 1 := by
  rcases findIdxP_some _ _ _ hfind with ⟨hi, -⟩
  have hset : (rate s pid r).2.ptable = s.ptable.set i
      { getP s.ptable i with
          rate := r,
          priority := if (90 - 3 * r + 28).tdiv 29 < 1 then 1
                      else (90 - 3 * r + 28).tdiv 29 } := by
    unfold rate
    rw [hfind]
  have hret : (rate s pid r).1 = 0 := by
    unfold rate
    rw [hfind]
  refine ⟨hret, ?_, ?_, by decide, by decide, by decide, by decide⟩
  · rw [hset, getP_set_self _ _ _ hi]
  · rw [hset, getP_set_self _ _ _ hi]
    exact clamp_tdiv_eq_max_fdiv (90 - 3 * r + 28)

def pC4 : Proc := { proc0 with pid := 2, state := Pstate.RUNNABLE }

def sC4 : KState := { ptable := [pC4], utf_edf := 0, utf_rm := 0, ticks := 0 }

/-- C4 witness: set_rate(2, 20) on a concrete table returns 0 and derives
priority 2 from rate 20. -/
theorem C4_rate_priority_witness :
    (rate sC4 2 20).1 = 0 ∧
    (getP (rate sC4 2 20).2.ptable 0).rate = 20 ∧
    (getP (rate sC4 2 20).2.ptable 0).priority = max 1 ((90 - 3 * (20 : Int) + 28).fdiv 29) := by
  have h := C4_rate_priority sC4 2 20 0 (by decide)
  exact ⟨h.1, h.2.1, h.2.2.1⟩

def pC5 : Proc := { proc0 with pid := 2, state := Pstate.RUNNABLE }

def sC5 : KState := { ptable := [pC5], utf_edf := 0, utf_rm := 0, ticks := 0 }

/-- C5: the claim says a set_policy call on an absent pid returns -22; the
source of sched_policy has no not-found flag (unlike exec_time, deadline
and rate), so the loop falls through with check = 0 and the call returns 0
while changing nothing.  Evaluated here at a concrete table holding only
pid 2, with the call sched_policy(9, 0): the result is 0 and the state is
returned untouched, contradicting the claimed -22. -/
theorem C5_not_found_returns_zero :
    sched_policy sC5 9 0 = some (0, sC5) ∧ (0 : Int) ≠ -22 := by
  constructor
  · decide
  · decide

def pC6 : Proc := { proc0 with pid := 2, state := Pstate.RUNNABLE }

def sC6 : KState := { ptable := [pC6], utf_edf := 0, utf_rm := 0, ticks := 0 }

def sC6run : KState := { sC6 with ptable := [{ pC6 with state := Pstate.RUNNING }] }

/-- C6 counterexample: one RUNNABLE process with policy None (-1).  The
scheduler selects it through the fallback branch, which has no
elapsed_time increment: after the selection elapsed_time is still 0, not
the old value plus 1, refuting the claim that every scheduling decision
increments the selected process's elapsed_time. -/
theorem C6_counterexample :
    schedStep sC6 = some (0, sC6run) ∧
    (getP sC6run.ptable 0).elapsed_time ≠ (getP sC6.ptable 0).elapsed_time + 1 := by
  decide

/-- C6 amended: the process selected through the Edf or Rm branch has its
elapsed_time incremented by exactly 1; a process selected through the
policy-None round-robin fallback keeps its elapsed_time unchanged
(the fallback branch of scheduler() carries no increment). -/
theorem C6_elapsed_amended (s : KState) (i j : Nat) (s' : KState)
    (hfirst : firstRunnable? s.ptable = some i)
    (hstep : schedStep s = some (j, s')) :
    (((getP s.ptable i).sched_policy = 0 ∨ (getP s.ptable i).sched_policy = 1) →
      (getP s'.ptable j).elapsed_time = (getP s.ptable j).elapsed_time + 1) ∧
    ((getP s.ptable i).sched_policy ≠ 0 ∧ (getP s.ptable i).sched_policy ≠ 1 →
      (getP s'.ptable j).elapsed_time = (getP s.ptable j).elapsed_time) := by
  have hfind : findIdxP runnableB s.ptable = some i := hfirst
  rcases findIdxP_some _ _ _ hfind with ⟨hi, hriB⟩
  have hri : (getP s.ptable i).state = Pstate.RUNNABLE := by
    simpa [runnableB] using hriB
  unfold schedStep at hstep
  rw [hfirst] at hstep
  dsimp only at hstep
  constructor
  · intro hpol
    rcases hpol with h0 | h1
    · rw [if_pos h0] at hstep
      simp only [Option.some.injEq, Prod.mk.injEq] at hstep
      rcases hstep with ⟨hj, hs⟩
      subst hj
      subst hs
      rcases pickLoop_consistent (fun q => q.deadline) s.ptable i hi hri with ⟨hc1, hc2, -⟩
      dsimp only
      rw [getP_set_self _ _ _ hc1, hc2]
    · rw [if_neg (by omega), if_pos h1] at hstep
      simp only [Option.some.injEq, Prod.mk.injEq] at hstep
      rcases hstep with ⟨hj, hs⟩
      subst hj
      subst hs
      rcases pickLoop_consistent (fun q => q.priority) s.ptable i hi hri with ⟨hc1, hc2, -⟩
      dsimp only
      rw [getP_set_self _ _ _ hc1, hc2]
  · intro hpol
    rw [if_neg hpol.1, if_neg hpol.2] at hstep
    simp only [Option.some.injEq, Prod.mk.injEq] at hstep
    rcases hstep with ⟨hj, hs⟩
    subst hj
    subst hs
    dsimp only
    rw [getP_set_self _ _ _ hi]

def pC6w : Proc :=
  { proc0 with pid := 2, state := Pstate.RUNNABLE, sched_policy := 0, deadline := 5 }

def sC6w : KState := { ptable := [pC6w], utf_edf := 0, utf_rm := 0, ticks := 0 }

def sC6wrun : KState :=
  { sC6w with ptable := [{ pC6w with elapsed_time := 1, state := Pstate.RUNNING }] }

/-- C6 witness for the amended statement: an EDF selection increments the
chosen slot's elapsed_time from 0 to 1. -/
theorem C6_elapsed_amended_witness :
    (getP sC6wrun.ptable 0).elapsed_time = (getP sC6w.ptable 0).elapsed_time + 1 :=
  (C6_elapsed_amended sC6w 0 0 sC6wrun (by decide) (by decide)).1 (Or.inl (by decide))

/-- C7: in every state reachable by any sequence of setter calls,
admissions, scheduler selections, process returns and clock ticks from a
state satisfying the EDF utilization invariant (for instance any boot
state with no EDF process), the invariant holds: whenever at least one
process has policy Edf, utf_edf < 100.  Each single operation preserves
it. -/
theorem C7_edf_invariant (s0 s1 : KState)
    (hstar : Relation.ReflTransGen Step s0 s1)
    (hinv : EdfInvariant s0) : EdfInvariant s1 := by
  induction hstar with
  | refl => exact hinv
  | tail hab hbc ih => exact step_edfInv _ _ hbc ih

def pC7 : Proc :=
  { proc0 with pid := 2, state := Pstate.RUNNABLE, deadline := 10, execution_time := 5 }

def sC7 : KState := { ptable := [pC7], utf_edf := 0, utf_rm := 0, ticks := 0 }

def sC7b : KState :=
  { ptable := [{ pC7 with sched_policy := 0 }], utf_edf := 50, utf_rm := 0, ticks := 0 }

/-- C7 witness: after one concrete EDF admission step from a policy-free
state the invariant still holds (utf_edf = 50 < 100). -/
theorem C7_edf_invariant_witness : EdfInvariant sC7b :=
  C7_edf_invariant sC7 sC7b
    (Relation.ReflTransGen.single (Step.set_pol sC7 2 0 0 sC7b (by decide)))
    (by unfold EdfInvariant; decide)

/-- C8: each of set_deadline, set_exec_time and set_rate, called with any
value whatsoever, overwrites the named field (plus the derived priority
for set_rate) of the first slot carrying the pid and returns 0; when no
slot carries the pid each returns -22 and leaves the state untouched. -/
theorem C8_setters (s : KState) (pid v : Int) :
    (∀ i, findIdxP (pidPred pid) s.ptable = some i →
      deadline s pid v = (0,
        { s with ptable := s.ptable.set i { getP s.ptable i with deadline := v } }) ∧
      exec_time s pid v = (0,
        { s with ptable := s.ptable.set i { getP s.ptable i with execution_time := v } }) ∧
      rate s pid v = (0,
        { s with
            ptable := s.ptable.set i
              { getP s.ptable i with
                  rate := v,
                  priority := if (90 - 3 * v + 28).tdiv 29 < 1 then 1
                              else (90 - 3 * v + 28).tdiv 29 } })) ∧
    (findIdxP (pidPred pid) s.ptable = none →
      deadline s pid v = (-22, s) ∧ exec_time s pid v = (-22, s) ∧
      rate s pid v = (-22, s)) := by
  constructor
  · intro i hf
    refine ⟨?_, ?_, ?_⟩
    · unfold deadline
      rw [hf]
    · unfold exec_time
      rw [hf]
    · unfold rate
      rw [hf]
  · intro hf
    refine ⟨?_, ?_, ?_⟩
    · unfold deadline
      rw [hf]
    · unfold exec_time
      rw [hf]
    · unfold rate
      rw [hf]

def pC8 : Proc := { proc0 with pid := 2, state := Pstate.RUNNABLE }

def sC8 : KState := { ptable := [pC8], utf_edf := 0, utf_rm := 0, ticks := 0 }

/-- C8 witness: set_deadline(2, 7) on a concrete one-slot table overwrites
the deadline and returns 0. -/
theorem C8_setters_witness :
    deadline sC8 2 7 = (0,
      { sC8 with ptable := sC8.ptable.set 0 { getP sC8.ptable 0 with deadline := 7 } }) :=
  ((C8_setters sC8 2 7).1 0 (by decide)).1

/-- C9: a process whose set_policy call was rejected (the call returned
-22, which in the source happens only on admission failure, where the slot
is killed and made ZOMBIE) stays ZOMBIE in every state reachable
afterwards, hence never has state RUNNING, and no later scheduler
selection ever picks its slot. -/
theorem C9_rejected_never_runs (s : KState) (pid pol : Int) (s1 : KState) (i : Nat)
    (hsp : sched_policy s pid pol = some (-22, s1))
    (hfind : findIdxP (pidPred pid) s.ptable = some i) :
    ∀ s2, Relation.ReflTransGen Step s1 s2 →
      (getP s2.ptable i).state = Pstate.ZOMBIE ∧
      (getP s2.ptable i).state ≠ Pstate.RUNNING ∧
      ∀ j s3, schedStep s2 = some (j, s3) → j ≠ i := by
  have hz1 : (getP s1.ptable i).state = Pstate.ZOMBIE := by
    rcases sp_shape s pid pol (-22) s1 hsp with ⟨-, hr⟩ | h2 | h3 | h4
    · exact absurd hr (by norm_num)
    · rcases h2 with ⟨i2, q, hf2, hi2, -, hqz, hpt, -, -, -⟩
      have hii : i2 = i := by
        rw [hfind] at hf2
        exact (Option.some.inj hf2).symm
      subst hii
      rw [hpt, getP_set_self _ _ _ hi2]
      exact hqz
    · rcases h3 with ⟨-, -, -, -, -, -, -, -, hr⟩
      exact absurd hr (by norm_num)
    · rcases h4 with ⟨-, -, -, -, -, -, -, -, hr⟩
      exact absurd hr (by norm_num)
  intro s2 hstar
  have hz2 : (getP s2.ptable i).state = Pstate.ZOMBIE := by
    induction hstar with
    | refl => exact hz1
    | tail hab hbc ih => exact step_zombie _ _ i hbc ih
  refine ⟨hz2, by rw [hz2]; decide, ?_⟩
  intro j s3 hstep he
  rcases schedStep_shape s2 j s3 hstep with ⟨q, -, hjrun, -, -, -⟩
  rw [he, hz2] at hjrun
  cases hjrun

def pC9 : Proc :=
  { proc0 with pid := 2, state := Pstate.RUNNABLE, deadline := 1, execution_time := 200 }

def sC9 : KState := { ptable := [pC9], utf_edf := 0, utf_rm := 0, ticks := 0 }

def sC9z : KState :=
  { ptable := [{ pC9 with killed := 1, state := Pstate.ZOMBIE }],
    utf_edf := 0, utf_rm := 0, ticks := 0 }

/-- C9 witness: a concrete EDF rejection (u = 20000 pushes utf_edf past
100) leaves the slot ZOMBIE, and it is still ZOMBIE with no scheduler
selection possible for it in the rejection state itself. -/
theorem C9_rejected_never_runs_witness :
    (getP sC9z.ptable 0).state = Pstate.ZOMBIE :=
  (C9_rejected_never_runs sC9 2 0 sC9z 0 (by decide) (by decide) sC9z
    Relation.ReflTransGen.refl).1

/-- C10: the EDF admission path of sched_policy divides by the slot's
deadline with no zero guard.  For a slot still holding the fork-time
default deadline 0 the call set_policy(pid, Edf) hits a C division by
zero, modelled as the undefined result none; with any nonzero deadline the
call is defined. -/
theorem C10_division_by_zero (s : KState) (pid : Int) (i : Nat)
    (hfind : findIdxP (pidPred pid) s.ptable = some i) :
    ((getP s.ptable i).deadline = 0 → sched_policy s pid 0 = none) ∧
    ((getP s.ptable i).deadline ≠ 0 → (sched_policy s pid 0).isSome = true) := by
  constructor
  · intro hd
    unfold sched_policy
    rw [hfind]
    dsimp only
    rw [if_pos rfl, if_pos hd]
  · intro hd
    unfold sched_policy
    rw [hfind]
    dsimp only
    rw [if_pos rfl, if_neg hd]
    by_cases h100 : s.utf_edf +
        ((getP s.ptable i).execution_time * 100).tdiv (getP s.ptable i).deadline ≥ 100
    · rw [if_pos h100]
      rfl
    · rw [if_neg h100]
      rfl

def pC10 : Proc := { proc0 with pid := 2, state := Pstate.RUNNABLE }

def sC10 : KState := { ptable := [pC10], utf_edf := 0, utf_rm := 0, ticks := 0 }

/-- C10 witness: with the fork-time default deadline 0 still in place,
set_policy(2, Edf) is the undefined division by zero. -/
theorem C10_division_by_zero_witness : sched_policy sC10 2 0 = none :=
  (C10_division_by_zero sC10 2 0 (by decide)).1 (by decide)
